import Mathlib

/-!
Verification of the quantization and export pipeline of an MNIST
digit-classifier targeting an FPGA (`trainning/train_quantize_export.py`).

The development embeds the numeric core of the script:

* `rhte` — round-half-to-even, the rounding convention of `torch.round`
  and Python's builtin `round`;
* `clamp_int8` — saturation to the signed 8-bit range, `torch.clamp(t, -128, 127)`;
* `quantize_linear` — int8 weight / int32 bias quantization of a linear layer;
* `calc_scale_sym` — symmetric scale estimation `max |v| / 127`;
* `shiftSolver` and the pipeline builder — the power-of-two requantization
  shift and the effective hidden scale;
* `forward_quantized` — the integer-only golden-reference forward pass;
* `save_mem_int8` / `save_mem_int32` — the hex text export format.

Machine integers are modelled as `ℤ` (the accumulators stay far inside the
32-bit range for this topology; the spec treats overflow as out of scope),
floats as elements of an arbitrary linear ordered field (`ℚ` for concrete
evaluation, `ℝ` where `log2` is involved).
-/

namespace MnistFpga

/-! ## Rounding and clamping helpers -/

/-- Round half to even (banker's rounding), the convention of `torch.round`
and Python's `round`: ties at `.5` go to the nearest even integer. -/
def rhte {α : Type} [LinearOrderedField α] [FloorRing α]
    (x : α) : ℤ :=
  if x - (⌊x⌋ : α) = 1 / 2 then (if Even ⌊x⌋ then ⌊x⌋ else ⌊x⌋ + 1)
  else round x

/-- Saturate to the signed 8-bit range: `torch.clamp(t, -128, 127)`. -/
def clamp_int8 (z : ℤ) : ℤ := min 127 (max (-128) z)

/-! ## Quantization of a linear layer (source: `quantize_linear`) -/

/-- Source `quantize_linear`: int8 symmetric weight quantization
`Wq = clamp_int8(round(W / w_scale))` together with int32 bias quantization
`bq = round(b / (in_scale * w_scale))` (no clamp on the bias). -/
def quantize_linear {α : Type} [LinearOrderedField α] [FloorRing α]
    (W : List (List α)) (b : List α) (in_scale w_scale : α) :
    List (List ℤ) × List ℤ :=
  (W.map (fun row => row.map (fun w => clamp_int8 (rhte (w / w_scale)))),
   b.map (fun v => rhte (v / (in_scale * w_scale))))

/-! ## Symmetric scale estimation (source: `calc_scale_sym`) -/

/-- Maximum absolute value of a flat collection (`t.abs().max()`). -/
def maxAbs {α : Type} [LinearOrderedField α] (l : List α) : α :=
  l.foldr (fun v m => max |v| m) 0

/-- Source `calc_scale_sym`: `max |v| / 127` when positive, else the degenerate
fallback `1.0`. -/
def calc_scale_sym {α : Type} [LinearOrderedField α]
    (l : List α) : α :=
  if 0 < maxAbs l then maxAbs l / 127 else 1

/-! ## Shift solver (source lines: `M1`, `shift1`, `scale_h1_eff`) -/

/-- Source `shift1 = max(0, int(round(math.log2(M1)))) if M1 > 0 else 0` with
`M1 = acc_scale / (target if target > 0 else 1.0)`. -/
noncomputable def shiftSolver (s_acc s_target : ℝ) : ℤ :=
  if 0 < s_acc / (if 0 < s_target then s_target else 1) then
    max 0 (rhte (Real.logb 2 (s_acc / (if 0 < s_target then s_target else 1))))
  else 0

/-- Source `scale_h1_eff = acc1_scale / (2**shift1)`: the scale realized by the
hardware right shift. -/
noncomputable def effectiveScale (s_acc s_target : ℝ) : ℝ :=
  s_acc / 2 ^ (shiftSolver s_acc s_target).toNat

/-! ## Quantized forward pass (source: `int8_mm_int32_acc`, `forward_quantized`) -/

/-- Arithmetic (sign-preserving) right shift on `ℤ`: floor division by `2^s`,
the semantics of `>>` on a signed torch int32 tensor. -/
def asr (a : ℤ) (s : ℕ) : ℤ := Int.fdiv a (2 ^ s)

/-- Integer dot product (one row of `torch.matmul` in int32). -/
def dotZ (r x : List ℤ) : ℤ := (List.zipWith (· * ·) r x).sum

/-- Source `int8_mm_int32_acc`: `(out_dim, in_dim)` weight matrix times `(in_dim,)`
vector with int32 accumulation. -/
def int8_mm_int32_acc (Wq : List (List ℤ)) (xq : List ℤ) : List ℤ :=
  Wq.map (fun row => dotZ row xq)

/-- Model of `torch.argmax` on a vector: index of the first occurrence of the
maximum value. -/
def argmaxZ : List ℤ → ℕ
  | [] => 0
  | [_] => 0
  | x :: y :: ys =>
    if x < (y :: ys).getD (argmaxZ (y :: ys)) 0 then argmaxZ (y :: ys) + 1
    else 0

/-- The immutable quantized two-layer pipeline consumed by the simulator:
int8 weights, int32 biases, and the layer-1 requantization shift
(`shift2 = 0` is fixed, so layer 2 carries no shift field). -/
structure Pipeline where
  W1q : List (List ℤ)
  b1q : List ℤ
  shift1 : ℕ
  W2q : List (List ℤ)
  b2q : List ℤ
  deriving DecidableEq

/-- Source `forward_quantized`: the integer-only golden-reference forward pass.
Layer 1: int32 matmul + bias, arithmetic right shift, clamp to int8, ReLU.
Layer 2: int32 matmul + bias, kept as int32 logits; argmax prediction. -/
def forward_quantized (P : Pipeline) (xq : List ℤ) :
    ℕ × List ℤ × List ℤ × List ℤ :=
  let acc1 := List.zipWith (· + ·) (int8_mm_int32_acc P.W1q xq) P.b1q
  let h1c := acc1.map (fun a => clamp_int8 (asr a P.shift1))
  let h1 := h1c.map (fun a => max a 0)
  let acc2 := List.zipWith (· + ·) (int8_mm_int32_acc P.W2q h1) P.b2q
  let pred := argmaxZ acc2
  (pred, acc1, h1, acc2)

/-! ## Pipeline builder (source lines 125-144: quantize layer 1, resolve
`shift1`, then quantize layer 2 with the effective hidden scale) -/

/-- Build the full quantized pipeline from float weights and calibration
scales.  Layer 1 is quantized with `in_scale = scale_x`; then `shift1` is
resolved from `acc1_scale = scale_x * scale_w1` and the target hidden
scale; layer 2 is quantized with `in_scale = scale_h1_eff`, the scale
realized after the layer-1 shift, not the estimated target scale. -/
noncomputable def buildPipeline (W1 : List (List ℝ)) (b1 : List ℝ)
    (W2 : List (List ℝ)) (b2 : List ℝ)
    (scale_x scale_w1 scale_w2 scale_h1_target : ℝ) : Pipeline :=
  let l1 := quantize_linear W1 b1 scale_x scale_w1
  let acc1_scale := scale_x * scale_w1
  let sh1 := (shiftSolver acc1_scale scale_h1_target).toNat
  let scale_h1_eff := acc1_scale / 2 ^ sh1
  let in2_scale := scale_h1_eff
  let l2 := quantize_linear W2 b2 in2_scale scale_w2
  ⟨l1.1, l1.2, sh1, l2.1, l2.2⟩

/-! ## Hex export format (source: `save_mem_int8`, `save_mem_int32`) -/

/-- Lowercase hex digit for a value below 16 (as in Python's `x` format). -/
def hexChar (n : ℕ) : Char :=
  if n < 10 then Char.ofNat (48 + n) else Char.ofNat (87 + n)

/-- Big-endian fixed-width hex rendering of a natural number:
`k` digits, most significant first. -/
def toHexDigits : ℕ → ℕ → List Char
  | 0, _ => []
  | k + 1, u => toHexDigits k (u / 16) ++ [hexChar (u % 16)]

/-- The sixteen characters a hex token may contain (all lowercase). -/
def hexAlphabet : List Char := "0123456789abcdef".toList

/-- Value denoted by a single hex character. -/
def hexVal (c : Char) : ℕ :=
  if 97 ≤ c.toNat then c.toNat - 87 else c.toNat - 48

/-- Value denoted by a big-endian hex token. -/
def decodeHex (cs : List Char) : ℕ :=
  cs.foldl (fun a c => 16 * a + hexVal c) 0

/-- Two-hex-digit token for one int8 value: `f-string` format
`(int(v) & 0xFF):02x`, the unsigned byte view of two's complement. -/
def toHexByte (v : ℤ) : String := String.mk (toHexDigits 2 (v % 256).toNat)

/-- Eight-hex-digit token for one int32 value: format
`(int(v) & 0xFFFFFFFF):08x`. -/
def toHexWord (v : ℤ) : String :=
  String.mk (toHexDigits 8 (v % 4294967296).toNat)

/-- Source `save_mem_int8`: one output line per matrix row, the row's bytes as
space-separated two-digit hex tokens. -/
def save_mem_int8 (arr2d : List (List ℤ)) : List String :=
  arr2d.map (fun row => String.intercalate " " (row.map toHexByte))

/-- Source `save_mem_int32`: one output line per vector element, each an
eight-digit hex token. -/
def save_mem_int32 (arr1d : List ℤ) : List String :=
  arr1d.map toHexWord

/-! ## Concrete sample data used by the witnesses -/

/-- A small concrete pipeline used to exercise the simulator. -/
def sampleP : Pipeline :=
  ⟨[[1, 2], [3, -4]], [10, -20], 1, [[1, -1]], [5]⟩

/-! ## Properties of round-half-to-even -/

section Rounding

variable {α : Type} [LinearOrderedField α] [FloorRing α]

theorem rhte_intCast (n : ℤ) : rhte (n : α) = n := by
  unfold rhte
  rw [Int.floor_intCast, if_neg (by norm_num), round_intCast]

theorem abs_rhte_sub (x : α) : |(rhte x : α) - x| ≤ 1 / 2 := by
  unfold rhte
  by_cases h : x - (⌊x⌋ : α) = 1 / 2
  · rw [if_pos h]
    by_cases he : Even ⌊x⌋
    · rw [if_pos he, abs_le]
      constructor <;> linarith
    · rw [if_neg he, abs_le]
      push_cast
      constructor <;> linarith
  · rw [if_neg h]
    have h2 := abs_sub_round x
    rwa [abs_sub_comm] at h2

theorem rhte_le_of_le {x : α} {n : ℤ} (h : x ≤ (n : α)) : rhte x ≤ n := by
  unfold rhte
  by_cases ht : x - (⌊x⌋ : α) = 1 / 2
  · rw [if_pos ht]
    have hfl : ⌊x⌋ < n := by
      have hc : (⌊x⌋ : α) < (n : α) := by linarith
      exact_mod_cast hc
    split <;> omega
  · rw [if_neg ht, round_eq]
    have h3 : ⌊x + 1 / 2⌋ ≤ ⌊(n : α) + 1 / 2⌋ :=
      Int.floor_le_floor (by linarith)
    have h4 : ⌊(n : α) + 1 / 2⌋ = n := by
      rw [Int.floor_int_add]
      norm_num
    omega

theorem le_rhte_of_le {x : α} {n : ℤ} (h : (n : α) ≤ x) : n ≤ rhte x := by
  have hfl : n ≤ ⌊x⌋ := Int.le_floor.mpr h
  unfold rhte
  by_cases ht : x - (⌊x⌋ : α) = 1 / 2
  · rw [if_pos ht]
    split <;> omega
  · rw [if_neg ht, round_eq]
    have h2 : ⌊x⌋ ≤ ⌊x + 1 / 2⌋ := Int.floor_le_floor (by linarith)
    omega

theorem rhte_nonpos {x : α} (h : x ≤ 0) : rhte x ≤ 0 :=
  rhte_le_of_le (n := 0) (by exact_mod_cast h)

theorem rhte_half : rhte ((1 : α) / 2) = 0 := by
  have hf : ⌊(1 : α) / 2⌋ = 0 := by norm_num
  unfold rhte
  rw [hf, if_pos (by norm_num), if_pos (by decide)]

theorem rhte_three_halves : rhte ((3 : α) / 2) = 2 := by
  have hf : ⌊(3 : α) / 2⌋ = 1 := by
    rw [Int.floor_eq_iff]
    norm_num
  unfold rhte
  rw [hf, if_pos (by push_cast; ring_nf), if_neg (by decide)]
  decide

theorem rhte_five_halves : rhte ((5 : α) / 2) = 2 := by
  have hf : ⌊(5 : α) / 2⌋ = 2 := by
    rw [Int.floor_eq_iff]
    norm_num
  unfold rhte
  rw [hf, if_pos (by push_cast; ring_nf), if_pos (by decide)]

end Rounding

/-! ## List access helpers -/

theorem getD_map_fixed {α β : Type} (f : α → β) (d : α) (z : β) (hz : f d = z)
    (l : List α) (n : ℕ) : (l.map f).getD n z = f (l.getD n d) := by
  induction l generalizing n with
  | nil => simp [hz]
  | cons a t ih =>
    cases n with
    | zero => simp
    | succ m => simpa using ih m

/-! ## Scale estimator helpers -/

theorem maxAbs_eq_zero {α : Type} [LinearOrderedField α] {l : List α}
    (h : ∀ v ∈ l, v = 0) : maxAbs l = 0 := by
  induction l with
  | nil => rfl
  | cons a t ih =>
    have ha : a = 0 := h a (List.mem_cons_self a t)
    have ht := ih (fun v hv => h v (List.mem_cons_of_mem a hv))
    simp only [maxAbs, List.foldr_cons] at ht ⊢
    rw [ha, ht]
    simp

/-! ## Argmax helpers -/

theorem argmaxZ_lt_length (l : List ℤ) (h : l ≠ []) : argmaxZ l < l.length := by
  induction l with
  | nil => exact absurd rfl h
  | cons a t ih =>
    cases t with
    | nil => simp [argmaxZ]
    | cons b u =>
      have ihh := ih (by simp)
      simp only [argmaxZ]
      split
      · simpa using Nat.succ_lt_succ ihh
      · simp

theorem argmaxZ_is_max (l : List ℤ) (h : l ≠ []) :
    ∀ j < l.length, l.getD j 0 ≤ l.getD (argmaxZ l) 0 := by
  induction l with
  | nil => exact absurd rfl h
  | cons a t ih =>
    cases t with
    | nil =>
      intro j hj
      have hj0 : j = 0 := by simpa using Nat.lt_one_iff.mp (by simpa using hj)
      subst hj0
      simp [argmaxZ]
    | cons b u =>
      intro j hj
      have ihh := ih (by simp)
      simp only [argmaxZ]
      by_cases hc : a < (b :: u).getD (argmaxZ (b :: u)) 0
      · rw [if_pos hc]
        cases j with
        | zero => simpa using le_of_lt hc
        | succ k =>
          have hk : k < (b :: u).length := by simpa using hj
          simpa using ihh k hk
      · rw [if_neg hc]
        cases j with
        | zero => simp
        | succ k =>
          have hk : k < (b :: u).length := by simpa using hj
          have h1 := ihh k hk
          have h2 : (b :: u).getD (argmaxZ (b :: u)) 0 ≤ a := not_lt.mp hc
          simp only [List.getD_cons_succ, List.getD_cons_zero]
          omega

theorem argmaxZ_first (l : List ℤ) :
    ∀ j < argmaxZ l, l.getD j 0 < l.getD (argmaxZ l) 0 := by
  induction l with
  | nil => intro j hj; simp [argmaxZ] at hj
  | cons a t ih =>
    cases t with
    | nil => intro j hj; simp [argmaxZ] at hj
    | cons b u =>
      intro j hj
      simp only [argmaxZ] at hj ⊢
      by_cases hc : a < (b :: u).getD (argmaxZ (b :: u)) 0
      · rw [if_pos hc] at hj ⊢
        cases j with
        | zero => simpa using hc
        | succ k =>
          have hk : k < argmaxZ (b :: u) := by omega
          simpa using ih k hk
      · rw [if_neg hc] at hj
        omega

/-! ## Accumulator access helpers -/

theorem acc_getD (Wq : List (List ℤ)) (b x : List ℤ) (i : ℕ)
    (hi : i < Wq.length) (hb : b.length = Wq.length) :
    (List.zipWith (· + ·) (int8_mm_int32_acc Wq x) b).getD i 0 =
      dotZ (Wq.getD i []) x + b.getD i 0 := by
  have hlen : (List.zipWith (· + ·) (int8_mm_int32_acc Wq x) b).length = Wq.length := by
    simp [int8_mm_int32_acc, hb]
  have hi2 : i < (List.zipWith (· + ·) (int8_mm_int32_acc Wq x) b).length := by omega
  rw [List.getD_eq_getElem _ _ hi2]
  rw [List.getElem_zipWith]
  have him : i < (int8_mm_int32_acc Wq x).length := by
    simpa [int8_mm_int32_acc] using hi
  have hib : i < b.length := by omega
  congr 1
  · show (int8_mm_int32_acc Wq x)[i] = dotZ (Wq.getD i []) x
    simp only [int8_mm_int32_acc, List.getElem_map]
    rw [List.getD_eq_getElem _ _ hi]
  · exact (List.getD_eq_getElem _ _ hib).symm

/-! ## Hex-format helpers -/

theorem length_toHexDigits (k u : ℕ) : (toHexDigits k u).length = k := by
  induction k generalizing u with
  | zero => rfl
  | succ n ih => simp [toHexDigits, ih]

theorem hexVal_hexChar {d : ℕ} (hd : d < 16) : hexVal (hexChar d) = d := by
  interval_cases d <;> decide

theorem hexChar_mem {d : ℕ} (hd : d < 16) : hexChar d ∈ hexAlphabet := by
  interval_cases d <;> decide

theorem decodeHex_toHexDigits (k u : ℕ) (h : u < 16 ^ k) :
    decodeHex (toHexDigits k u) = u := by
  induction k generalizing u with
  | zero =>
    have hu : u = 0 := by simpa using h
    subst hu
    rfl
  | succ n ih =>
    have h1 : u / 16 < 16 ^ n := by
      rw [Nat.div_lt_iff_lt_mul (by norm_num)]
      calc u < 16 ^ (n + 1) := h
        _ = 16 ^ n * 16 := by ring
    have h2 := ih (u / 16) h1
    unfold decodeHex at h2 ⊢
    unfold toHexDigits
    rw [List.foldl_append]
    simp only [List.foldl_cons, List.foldl_nil]
    rw [h2, hexVal_hexChar (Nat.mod_lt _ (by norm_num))]
    omega

theorem mem_toHexDigits {k u : ℕ} {c : Char} (hc : c ∈ toHexDigits k u) :
    c ∈ hexAlphabet := by
  induction k generalizing u with
  | zero => simp [toHexDigits] at hc
  | succ n ih =>
    simp only [toHexDigits, List.mem_append, List.mem_singleton] at hc
    cases hc with
    | inl h => exact ih h
    | inr h => exact h ▸ hexChar_mem (Nat.mod_lt _ (by norm_num))

theorem rhte_zero {α : Type} [LinearOrderedField α] [FloorRing α] :
    rhte (0 : α) = 0 := by
  simpa using rhte_intCast (α := α) 0

/-! ## Claim theorems -/

/-- C2: the weight quantizer returns
`Wq[i,j] = clamp(round(W[i,j] / w_scale), -128, 127)` where `round` is
round-half-to-even (`0.5 → 0`, `1.5 → 2`, `2.5 → 2`), and
`bq[i] = round(b[i] / (in_scale * w_scale))` as an integer with no clamping
applied to the bias. -/
theorem quantize_linear_spec {α : Type} [LinearOrderedField α] [FloorRing α]
    (W : List (List α)) (b : List α) (in_scale w_scale : α)
    (hin : 0 < in_scale) (hw : 0 < w_scale) :
    (∀ i j : ℕ,
        ((quantize_linear W b in_scale w_scale).1.getD i []).getD j 0 =
          clamp_int8 (rhte ((W.getD i []).getD j 0 / w_scale))) ∧
    (∀ i : ℕ,
        (quantize_linear W b in_scale w_scale).2.getD i 0 =
          rhte (b.getD i 0 / (in_scale * w_scale))) ∧
    rhte ((1 : α) / 2) = 0 ∧ rhte ((3 : α) / 2) = 2 ∧ rhte ((5 : α) / 2) = 2 := by
  have hz : clamp_int8 (rhte ((0 : α) / w_scale)) = 0 := by
    rw [zero_div, rhte_zero]
    rfl
  have hbz : rhte ((0 : α) / (in_scale * w_scale)) = 0 := by
    rw [zero_div, rhte_zero]
  refine ⟨?_, ?_, rhte_half, rhte_three_halves, rhte_five_halves⟩
  · intro i j
    have houter :
        (quantize_linear W b in_scale w_scale).1.getD i [] =
          (W.getD i []).map (fun w => clamp_int8 (rhte (w / w_scale))) := by
      exact getD_map_fixed _ [] [] rfl W i
    rw [houter]
    exact getD_map_fixed _ 0 0 hz (W.getD i []) j
  · intro i
    exact getD_map_fixed _ 0 0 hbz b i

theorem quantize_linear_spec_witness :
    (0 : ℚ) < 1 / 100 ∧
    ((quantize_linear [[(1 : ℚ) / 250]] [3] (1 / 100) (1 / 100)).1.getD 0 []).getD 0 0 =
      clamp_int8 (rhte (([[(1 : ℚ) / 250]].getD 0 []).getD 0 0 / (1 / 100))) ∧
    (quantize_linear [[(1 : ℚ) / 250]] [3] (1 / 100) (1 / 100)).2.getD 0 0 =
      rhte (([3] : List ℚ).getD 0 0 / (1 / 100 * (1 / 100))) := by
  refine ⟨by norm_num, ?_, ?_⟩
  · exact (quantize_linear_spec [[(1 : ℚ) / 250]] [3] (1 / 100) (1 / 100)
      (by norm_num) (by norm_num)).1 0 0
  · exact (quantize_linear_spec [[(1 : ℚ) / 250]] [3] (1 / 100) (1 / 100)
      (by norm_num) (by norm_num)).2.1 0

/-- C6: the scale estimator returns `max |v| / 127` when the maximum
absolute value is positive, exactly `1.0` when every value is zero, and a
strictly positive scale in every case. -/
theorem calc_scale_sym_spec {α : Type} [LinearOrderedField α] (l : List α) :
    0 < calc_scale_sym l ∧
    (0 < maxAbs l → calc_scale_sym l = maxAbs l / 127) ∧
    ((∀ v ∈ l, v = 0) → calc_scale_sym l = 1) := by
  refine ⟨?_, ?_, ?_⟩
  · unfold calc_scale_sym
    split
    · exact div_pos (by assumption) (by norm_num)
    · exact one_pos
  · intro h
    unfold calc_scale_sym
    rw [if_pos h]
  · intro h
    unfold calc_scale_sym
    rw [maxAbs_eq_zero h]
    norm_num

theorem calc_scale_sym_witness :
    calc_scale_sym [(0 : ℚ), 0] = 1 ∧ calc_scale_sym [(2 : ℚ), -3] = 3 / 127 := by
  constructor
  · refine (calc_scale_sym_spec [(0 : ℚ), 0]).2.2 ?_
    intro v hv
    rcases List.mem_cons.mp hv with h | h
    · exact h
    · simpa using h
  · have h := (calc_scale_sym_spec [(2 : ℚ), -3]).2.1
    have hm : maxAbs [(2 : ℚ), -3] = 3 := by
      norm_num [maxAbs]
    rw [hm] at h
    exact h (by norm_num)

/-- C7 counterexample: the round-trip bound fails as stated once the clamp
saturates; at `v = 1000`, `s = 1` the dequantized value `127` is off by
`873 > 0.5 * 1`. -/
theorem quant_dequant_cex :
    ¬ |(clamp_int8 (rhte ((1000 : ℚ) / 1)) : ℚ) * 1 - 1000| ≤ 1 / 2 * 1 := by
  have h1 : rhte ((1000 : ℚ) / 1) = 1000 := by
    rw [div_one]
    exact_mod_cast rhte_intCast (α := ℚ) 1000
  rw [h1]
  norm_num [clamp_int8]

/-- C7 (amended): for `s > 0` and `v` inside the representable range
`[-128 * s, 127 * s]`, dequantizing the quantized value is within `0.5 * s`
of `v`. -/
theorem quant_dequant_err {α : Type} [LinearOrderedField α] [FloorRing α]
    (v s : α) (hs : 0 < s) (hlo : -128 * s ≤ v) (hhi : v ≤ 127 * s) :
    |(clamp_int8 (rhte (v / s)) : α) * s - v| ≤ 1 / 2 * s := by
  have hds : v / s ≤ ((127 : ℤ) : α) := by
    rw [div_le_iff₀ hs]
    push_cast
    linarith
  have hds2 : ((-128 : ℤ) : α) ≤ v / s := by
    rw [le_div_iff₀ hs]
    push_cast
    linarith
  have h1 : rhte (v / s) ≤ 127 := rhte_le_of_le hds
  have h2 : -128 ≤ rhte (v / s) := le_rhte_of_le hds2
  have hcl : clamp_int8 (rhte (v / s)) = rhte (v / s) := by
    unfold clamp_int8
    omega
  rw [hcl]
  have h3 := abs_rhte_sub (v / s)
  have h4 : (rhte (v / s) : α) * s - v = ((rhte (v / s) : α) - v / s) * s := by
    field_simp
  rw [h4, abs_mul, abs_of_pos hs]
  exact mul_le_mul_of_nonneg_right h3 (le_of_lt hs)

theorem quant_dequant_err_witness :
    (0 : ℚ) < 1 ∧ |(clamp_int8 (rhte ((10 : ℚ) / 1)) : ℚ) * 1 - 10| ≤ 1 / 2 * 1 :=
  ⟨one_pos, quant_dequant_err 10 1 one_pos (by norm_num) (by norm_num)⟩

/-- C4: for `s_acc > 0` the shift solver returns
`max(0, round(log2 M))` with `M = s_acc / s_target` when `s_target > 0` and
`M = s_acc` otherwise; the result is always non-negative, and `M ≤ 1`
forces `shift = 0`. -/
theorem shiftSolver_spec (s_acc s_target : ℝ) (h : 0 < s_acc) :
    shiftSolver s_acc s_target =
      max 0 (rhte (Real.logb 2 (if 0 < s_target then s_acc / s_target else s_acc))) ∧
    0 ≤ shiftSolver s_acc s_target ∧
    ((if 0 < s_target then s_acc / s_target else s_acc) ≤ 1 →
      shiftSolver s_acc s_target = 0) := by
  have hM : s_acc / (if 0 < s_target then s_target else 1) =
      (if 0 < s_target then s_acc / s_target else s_acc) := by
    split <;> simp
  have hMpos : 0 < s_acc / (if 0 < s_target then s_target else 1) := by
    apply div_pos h
    split
    · assumption
    · norm_num
  have hform : shiftSolver s_acc s_target =
      max 0 (rhte (Real.logb 2 (if 0 < s_target then s_acc / s_target else s_acc))) := by
    unfold shiftSolver
    rw [if_pos hMpos, hM]
  refine ⟨hform, ?_, ?_⟩
  · rw [hform]
    exact le_max_left 0 _
  · intro hle
    rw [hform]
    have hlog : Real.logb 2 (if 0 < s_target then s_acc / s_target else s_acc) ≤ 0 := by
      apply Real.logb_nonpos (by norm_num)
      · exact le_of_lt (hM ▸ hMpos)
      · exact hle
    exact max_eq_left (rhte_nonpos hlog)

theorem shiftSolver_spec_witness : (0 : ℝ) < 1 ∧ shiftSolver 1 1 = 0 := by
  refine ⟨one_pos, ?_⟩
  apply (shiftSolver_spec 1 1 one_pos).2.2
  norm_num

/-- C5: the pipeline builder resolves `shift1` first, and layer 2's bias is
quantized with the layer-1 effective realized scale
`(scale_x * scale_w1) / 2 ^ shift1`, not the estimated target hidden
scale. -/
theorem buildPipeline_effective_scale
    (W1 : List (List ℝ)) (b1 : List ℝ) (W2 : List (List ℝ)) (b2 : List ℝ)
    (sx sw1 sw2 st : ℝ) :
    (buildPipeline W1 b1 W2 b2 sx sw1 sw2 st).shift1 =
      (shiftSolver (sx * sw1) st).toNat ∧
    effectiveScale (sx * sw1) st =
      (sx * sw1) / 2 ^ (buildPipeline W1 b1 W2 b2 sx sw1 sw2 st).shift1 ∧
    (buildPipeline W1 b1 W2 b2 sx sw1 sw2 st).b2q =
      (quantize_linear W2 b2 (effectiveScale (sx * sw1) st) sw2).2 ∧
    ∀ i : ℕ, (buildPipeline W1 b1 W2 b2 sx sw1 sw2 st).b2q.getD i 0 =
      rhte (b2.getD i 0 /
        ((sx * sw1 / 2 ^ (buildPipeline W1 b1 W2 b2 sx sw1 sw2 st).shift1) * sw2)) := by
  refine ⟨rfl, rfl, rfl, ?_⟩
  intro i
  have hz : rhte ((0 : ℝ) /
      ((sx * sw1 / 2 ^ ((shiftSolver (sx * sw1) st).toNat)) * sw2)) = 0 := by
    rw [zero_div, rhte_zero]
  exact getD_map_fixed _ 0 0 hz b2 i

/-- C1: the simulator computes `acc1 = W1q * x + b1q` exactly, obtains `h1`
by applying ReLU after clamping to `[-128, 127]` after an arithmetic
(sign-preserving) right shift of `acc1` by `shift1`, and computes
`acc2 = W2q * h1 + b2q` with no further shift and no clamp. -/
theorem forward_quantized_spec (P : Pipeline) (xq : List ℤ)
    (hx : ∀ v ∈ xq, -128 ≤ v ∧ v ≤ 127)
    (hb1 : P.b1q.length = P.W1q.length)
    (hb2 : P.b2q.length = P.W2q.length) :
    ((forward_quantized P xq).2.1.length = P.W1q.length ∧
      ∀ i < P.W1q.length,
        (forward_quantized P xq).2.1.getD i 0 =
          dotZ (P.W1q.getD i []) xq + P.b1q.getD i 0) ∧
    ((forward_quantized P xq).2.2.1.length = P.W1q.length ∧
      ∀ i < P.W1q.length,
        (forward_quantized P xq).2.2.1.getD i 0 =
          max 0 (clamp_int8 (asr ((forward_quantized P xq).2.1.getD i 0) P.shift1))) ∧
    ((forward_quantized P xq).2.2.2.length = P.W2q.length ∧
      ∀ i < P.W2q.length,
        (forward_quantized P xq).2.2.2.getD i 0 =
          dotZ (P.W2q.getD i []) (forward_quantized P xq).2.2.1 + P.b2q.getD i 0) ∧
    (∀ a : ℤ, (0 ≤ a → 0 ≤ asr a P.shift1) ∧ (a < 0 → asr a P.shift1 < 0)) := by
  have hacc1 : (forward_quantized P xq).2.1 =
      List.zipWith (· + ·) (int8_mm_int32_acc P.W1q xq) P.b1q := rfl
  have hh1 : (forward_quantized P xq).2.2.1 =
      ((List.zipWith (· + ·) (int8_mm_int32_acc P.W1q xq) P.b1q).map
        (fun a => clamp_int8 (asr a P.shift1))).map (fun a => max a 0) := rfl
  have hacc2 : (forward_quantized P xq).2.2.2 =
      List.zipWith (· + ·)
        (int8_mm_int32_acc P.W2q ((forward_quantized P xq).2.2.1)) P.b2q := rfl
  have hfz : clamp_int8 (asr 0 P.shift1) = 0 := by
    unfold asr
    rw [Int.zero_fdiv]
    rfl
  refine ⟨⟨?_, ?_⟩, ⟨?_, ?_⟩, ⟨?_, ?_⟩, ?_⟩
  · rw [hacc1]
    simp [int8_mm_int32_acc, hb1]
  · intro i hi
    rw [hacc1]
    exact acc_getD P.W1q P.b1q xq i hi hb1
  · rw [hh1]
    simp [int8_mm_int32_acc, hb1]
  · intro i hi
    rw [hh1, hacc1]
    rw [getD_map_fixed (fun a => max a 0) 0 0 rfl]
    rw [getD_map_fixed (fun a => clamp_int8 (asr a P.shift1)) 0 0 hfz]
    exact max_comm _ 0
  · rw [hacc2]
    simp [int8_mm_int32_acc, hb2]
  · intro i hi
    rw [hacc2]
    exact acc_getD P.W2q P.b2q _ i hi hb2
  · intro a
    constructor
    · intro ha
      exact Int.fdiv_nonneg ha (by positivity)
    · intro ha
      exact Int.fdiv_neg' ha (by positivity)

theorem forward_quantized_spec_witness :
    (∀ v ∈ ([1, -1] : List ℤ), -128 ≤ v ∧ v ≤ 127) ∧
    sampleP.b1q.length = sampleP.W1q.length ∧
    sampleP.b2q.length = sampleP.W2q.length ∧
    (∀ i < sampleP.W1q.length,
      (forward_quantized sampleP [1, -1]).2.1.getD i 0 =
        dotZ (sampleP.W1q.getD i []) [1, -1] + sampleP.b1q.getD i 0) :=
  ⟨by decide, by decide, by decide,
    (forward_quantized_spec sampleP [1, -1] (by decide) (by decide) (by decide)).1.2⟩

/-- C3: the simulator's prediction is `argmax` of the int32 logits: the
returned index is in range, carries the maximum value, and every earlier
index carries a strictly smaller value (lowest-index tie-break). -/
theorem prediction_argmax_spec (l : List ℤ) (h : l ≠ []) :
    argmaxZ l < l.length ∧
    (∀ j < l.length, l.getD j 0 ≤ l.getD (argmaxZ l) 0) ∧
    (∀ j < argmaxZ l, l.getD j 0 < l.getD (argmaxZ l) 0) ∧
    (∀ (P : Pipeline) (xq : List ℤ),
      (forward_quantized P xq).1 = argmaxZ (forward_quantized P xq).2.2.2) :=
  ⟨argmaxZ_lt_length l h, argmaxZ_is_max l h, argmaxZ_first l,
    fun _ _ => rfl⟩

theorem prediction_argmax_witness :
    argmaxZ [(3 : ℤ), 5, 5, 1] < 4 ∧
    ∀ j < argmaxZ [(3 : ℤ), 5, 5, 1],
      ([(3 : ℤ), 5, 5, 1].getD j 0) < [(3 : ℤ), 5, 5, 1].getD (argmaxZ [(3 : ℤ), 5, 5, 1]) 0 :=
  ⟨(prediction_argmax_spec [(3 : ℤ), 5, 5, 1] (by decide)).1,
    (prediction_argmax_spec [(3 : ℤ), 5, 5, 1] (by decide)).2.2.1⟩

/-- C9: the simulator is deterministic: identical pipeline and identical
input always yield the identical `(prediction, acc1, h1, acc2)` tuple. -/
theorem forward_quantized_deterministic (P Q : Pipeline) (x y : List ℤ)
    (hPQ : P = Q) (hxy : x = y) :
    forward_quantized P x = forward_quantized Q y := by
  rw [hPQ, hxy]

theorem forward_quantized_deterministic_witness :
    sampleP = sampleP ∧
    forward_quantized sampleP [1, -1] = forward_quantized sampleP [1, -1] :=
  ⟨rfl, forward_quantized_deterministic sampleP sampleP [1, -1] [1, -1] rfl rfl⟩

/-- C10: every element of the hidden activation `h1` lies in `[0, 127]`:
the layer-2 matmul always consumes a non-negative int8 vector. -/
theorem hidden_range_spec (P : Pipeline) (xq : List ℤ) (i : ℕ)
    (hi : i < (forward_quantized P xq).2.2.1.length) :
    0 ≤ (forward_quantized P xq).2.2.1.getD i 0 ∧
    (forward_quantized P xq).2.2.1.getD i 0 ≤ 127 := by
  have hh1 : (forward_quantized P xq).2.2.1 =
      ((List.zipWith (· + ·) (int8_mm_int32_acc P.W1q xq) P.b1q).map
        (fun a => clamp_int8 (asr a P.shift1))).map (fun a => max a 0) := rfl
  have hfz : clamp_int8 (asr 0 P.shift1) = 0 := by
    unfold asr
    rw [Int.zero_fdiv]
    rfl
  rw [hh1]
  rw [getD_map_fixed (fun a => max a 0) 0 0 rfl]
  rw [getD_map_fixed (fun a => clamp_int8 (asr a P.shift1)) 0 0 hfz]
  constructor
  · exact le_max_right _ 0
  · apply max_le
    · exact le_trans (min_le_left _ _) (by norm_num)
    · norm_num

theorem hidden_range_witness :
    0 < (forward_quantized sampleP [1, -1]).2.2.1.length ∧
    (0 ≤ (forward_quantized sampleP [1, -1]).2.2.1.getD 0 0 ∧
      (forward_quantized sampleP [1, -1]).2.2.1.getD 0 0 ≤ 127) :=
  ⟨by decide, hidden_range_spec sampleP [1, -1] 0 (by decide)⟩

/-- C8: the weight export has one line per row, each line the row's values
as space-separated two-hex-digit lowercase tokens encoding the unsigned
byte view of the two's-complement int8 value; the bias export has one
eight-hex-digit lowercase token per line encoding the unsigned view of the
two's-complement int32 value. -/
theorem save_mem_format_spec (arr2d : List (List ℤ)) (arr1d : List ℤ) :
    (save_mem_int8 arr2d).length = arr2d.length ∧
    (∀ i, (hi : i < arr2d.length) →
      (save_mem_int8 arr2d).getD i "" =
        String.intercalate " " ((arr2d.get ⟨i, hi⟩).map toHexByte)) ∧
    (∀ v : ℤ, -128 ≤ v → v ≤ 127 →
      (toHexByte v).data.length = 2 ∧
      (∀ c ∈ (toHexByte v).data, c ∈ hexAlphabet) ∧
      decodeHex (toHexByte v).data = (if 0 ≤ v then v else v + 256).toNat) ∧
    (save_mem_int32 arr1d).length = arr1d.length ∧
    (∀ i, (hi : i < arr1d.length) →
      (save_mem_int32 arr1d).getD i "" = toHexWord (arr1d.get ⟨i, hi⟩)) ∧
    (∀ v : ℤ, -(2 ^ 31) ≤ v → v < 2 ^ 31 →
      (toHexWord v).data.length = 8 ∧
      (∀ c ∈ (toHexWord v).data, c ∈ hexAlphabet) ∧
      decodeHex (toHexWord v).data = (if 0 ≤ v then v else v + 2 ^ 32).toNat) := by
  refine ⟨by simp [save_mem_int8], ?_, ?_, by simp [save_mem_int32], ?_, ?_⟩
  · intro i hi
    have hlen : i < (save_mem_int8 arr2d).length := by
      simpa [save_mem_int8] using hi
    rw [List.getD_eq_getElem _ _ hlen]
    simp [save_mem_int8, List.get_eq_getElem]
  · intro v hlo hhi
    have hb : (v % 256).toNat < 16 ^ 2 := by
      have h0 : 0 ≤ v % 256 := Int.emod_nonneg v (by norm_num)
      have h1 : v % 256 < 256 := Int.emod_lt_of_pos v (by norm_num)
      omega
    refine ⟨?_, ?_, ?_⟩
    · exact length_toHexDigits 2 (v % 256).toNat
    · intro c hc
      exact mem_toHexDigits hc
    · rw [show (toHexByte v).data = toHexDigits 2 (v % 256).toNat from rfl]
      rw [decodeHex_toHexDigits 2 (v % 256).toNat hb]
      have hmod : v % 256 = if 0 ≤ v then v else v + 256 := by
        split
        · omega
        · omega
      omega
  · intro i hi
    have hlen : i < (save_mem_int32 arr1d).length := by
      simpa [save_mem_int32] using hi
    rw [List.getD_eq_getElem _ _ hlen]
    simp [save_mem_int32, List.get_eq_getElem]
  · intro v hlo hhi
    have hb : (v % 4294967296).toNat < 16 ^ 8 := by
      have h0 : 0 ≤ v % 4294967296 := Int.emod_nonneg v (by norm_num)
      have h1 : v % 4294967296 < 4294967296 := Int.emod_lt_of_pos v (by norm_num)
      omega
    refine ⟨?_, ?_, ?_⟩
    · exact length_toHexDigits 8 (v % 4294967296).toNat
    · intro c hc
      exact mem_toHexDigits hc
    · rw [show (toHexWord v).data = toHexDigits 8 (v % 4294967296).toNat from rfl]
      rw [decodeHex_toHexDigits 8 (v % 4294967296).toNat hb]
      have h0 : 0 ≤ v % 4294967296 := Int.emod_nonneg v (by norm_num)
      have h1 : v % 4294967296 < 4294967296 := Int.emod_lt_of_pos v (by norm_num)
      have hmod : v % 4294967296 = if 0 ≤ v then v else v + 4294967296 := by
        split
        · omega
        · omega
      omega

theorem save_mem_format_witness :
    ((-128 : ℤ) ≤ -2 ∧ (-2 : ℤ) ≤ 127) ∧
    ((toHexByte (-2)).data.length = 2 ∧
      (∀ c ∈ (toHexByte (-2)).data, c ∈ hexAlphabet) ∧
      decodeHex (toHexByte (-2)).data = (if 0 ≤ (-2 : ℤ) then (-2 : ℤ) else -2 + 256).toNat) ∧
    (save_mem_int8 [[(-2 : ℤ)]]).length = 1 :=
  ⟨⟨by decide, by decide⟩,
    (save_mem_format_spec [[(-2 : ℤ)]] []).2.2.1 (-2) (by decide) (by decide),
    (save_mem_format_spec [[(-2 : ℤ)]] []).1⟩

end MnistFpga
